import Mathlib

/-!
# Verification of the dircheck reporting and change-tracking layer

Shallow embedding of `src/changes.rs` and `src/reports.rs` of the
`dircheck` repository, together with spec-modelled definitions for the
parts of the scan engine that the claims reference but whose source is
not part of the two provided files.

Database tables are modelled as Lean lists of row structures; SQL
queries are modelled as filter / join / sort operations on those lists;
callback-driven iteration (`with_each_scan_change`,
`with_each_scan_item`) is modelled as returning the ordered list of
callback invocations together with the returned row count.
-/

namespace DirCheck

/-- A row of the `items` table
(`items(id, root_path_id, path, item_type, last_seen_scan_id, is_tombstone,
last_modified, file_size NULLABLE, file_hash NULLABLE)`). -/
structure ItemRow where
  id : Int
  root_path_id : Int
  path : String
  item_type : String
  last_seen_scan_id : Int
  is_tombstone : Bool
  last_modified : Int
  file_size : Option Int
  file_hash : Option String
deriving DecidableEq

/-- A row of the `changes` table
(`changes(scan_id, item_id, change_type, metadata_changed NULLABLE BOOL,
hash_changed NULLABLE BOOL)`). -/
structure ChangeRow where
  scan_id : Int
  item_id : Int
  change_type : String
  metadata_changed : Option Bool
  hash_changed : Option Bool
deriving DecidableEq

/-- `enum ChangeType` from `src/changes.rs`. -/
inductive ChangeType where
  | Add
  | Delete
  | Modify
  | TypeChange
  | NoChange
deriving DecidableEq

/-- `ChangeType::as_db_str` from `src/changes.rs`. -/
def ChangeType.as_db_str : ChangeType → String
  | .Add => "A"
  | .Delete => "D"
  | .Modify => "M"
  | .TypeChange => "T"
  | .NoChange => "N"

/-- The `DirCheckError` error type; only its freeform-string variant
`DirCheckError::Error` is exercised by the embedded code. -/
inductive DirCheckError where
  | Error (msg : String)
deriving DecidableEq

/-- `impl fmt::Display for ChangeType` from `src/changes.rs`: the string
written by `fmt`. -/
def ChangeType.displayStr : ChangeType → String
  | .Add => "A"
  | .Delete => "D"
  | .Modify => "M"
  | .TypeChange => "T"
  | .NoChange => "N"

/-- `impl FromStr for ChangeType` from `src/changes.rs`. The Rust `match`
on the string is embedded as a chain of equality tests in the same
order. -/
def ChangeType.from_str (s : String) : Except DirCheckError ChangeType :=
  if s = "A" then .ok .Add
  else if s = "D" then .ok .Delete
  else if s = "M" then .ok .Modify
  else if s = "T" then .ok .TypeChange
  else if s = "N" then .ok .NoChange
  else .error (DirCheckError.Error ("Invalid ChangeType: " ++ s))

/-- `struct ChangeCounts` from `src/changes.rs` (all counters are `i64`). -/
structure ChangeCounts where
  add_count : Int
  modify_count : Int
  delete_count : Int
  type_change_count : Int
  unchanged_count : Int
deriving DecidableEq

/-- `#[derive(Default)]` on `ChangeCounts`: all counters zero. -/
def ChangeCounts.default : ChangeCounts := ⟨0, 0, 0, 0, 0⟩

/-- `ChangeCounts::get` from `src/changes.rs`. -/
def ChangeCounts.get (cc : ChangeCounts) : ChangeType → Int
  | .Add => cc.add_count
  | .Delete => cc.delete_count
  | .Modify => cc.modify_count
  | .TypeChange => cc.type_change_count
  | .NoChange => cc.unchanged_count

/-- `ChangeCounts::increment` from `src/changes.rs`. -/
def ChangeCounts.increment (cc : ChangeCounts) : ChangeType → ChangeCounts
  | .Add => { cc with add_count := cc.add_count + 1 }
  | .Delete => { cc with delete_count := cc.delete_count + 1 }
  | .Modify => { cc with modify_count := cc.modify_count + 1 }
  | .TypeChange => { cc with type_change_count := cc.type_change_count + 1 }
  | .NoChange => { cc with unchanged_count := cc.unchanged_count + 1 }

/-- `ChangeCounts::set` from `src/changes.rs`. -/
def ChangeCounts.set (cc : ChangeCounts) : ChangeType → Int → ChangeCounts
  | .Add, n => { cc with add_count := n }
  | .Delete, n => { cc with delete_count := n }
  | .Modify, n => { cc with modify_count := n }
  | .TypeChange, n => { cc with type_change_count := n }
  | .NoChange, n => { cc with unchanged_count := n }

/-- The set of change-kind codes that the schema persists. -/
def persistedKinds : List String := ["A", "M", "D", "T"]

/-- The rows of the `changes` table belonging to one scan
(`WHERE scan_id = ?`). -/
def matchingChanges (changes : List ChangeRow) (scan_id : Int) : List ChangeRow :=
  changes.filter (fun c => c.scan_id = scan_id)

/-- The result set of
`SELECT change_type, COUNT(*) FROM changes WHERE scan_id = ? GROUP BY change_type`:
one `(change_type, count)` pair per distinct `change_type` value among the
matching rows. -/
def groupCounts (changes : List ChangeRow) (scan_id : Int) : List (String × Int) :=
  let m := matchingChanges changes scan_id
  ((m.map (fun c => c.change_type)).dedup).map
    (fun t => (t, ((m.filter (fun c => c.change_type = t)).length : Int)))

/-- The body of the row loop in `ChangeCounts::from_scan_id`: dispatch on
the `change_type` string and `set` the corresponding counter; an unknown
string only prints a warning and touches no counter. -/
def applyGroupRow (cc : ChangeCounts) (row : String × Int) : ChangeCounts :=
  if row.1 = "A" then cc.set .Add row.2
  else if row.1 = "M" then cc.set .Modify row.2
  else if row.1 = "D" then cc.set .Delete row.2
  else if row.1 = "T" then cc.set .TypeChange row.2
  else cc

/-- `ChangeCounts::from_scan_id` from `src/changes.rs`: start from the
default value and fold the grouped aggregate rows through the dispatch
loop. The database connection is modelled by passing the `changes` table
directly. -/
def ChangeCounts.from_scan_id (changes : List ChangeRow) (scan_id : Int) : ChangeCounts :=
  (groupCounts changes scan_id).foldl applyGroupRow ChangeCounts.default

/-- One callback invocation of `Reports::with_each_scan_change`
(`src/reports.rs`): the selected columns
`items.id, changes.change_type, changes.metadata_changed,
changes.hash_changed, items.item_type, items.path`. -/
structure ChangeYield where
  item_id : Int
  change_type : String
  metadata_changed : Option Bool
  hash_changed : Option Bool
  item_type : String
  path : String
deriving DecidableEq

/-- The joined tuple built from one `changes` row and one `items` row. -/
def changeYieldOf (c : ChangeRow) (i : ItemRow) : ChangeYield :=
  ⟨i.id, c.change_type, c.metadata_changed, c.hash_changed, i.item_type, i.path⟩

/-- The unordered result set of the query in
`Reports::with_each_scan_change`:
`FROM changes JOIN items ON items.id = changes.item_id WHERE changes.scan_id = ?`. -/
def scanChangeJoin (changes : List ChangeRow) (items : List ItemRow)
    (scan_id : Int) : List ChangeYield :=
  (changes.filter (fun c => c.scan_id = scan_id)).flatMap
    (fun c => (items.filter (fun i => i.id = c.item_id)).map (changeYieldOf c))

/-- `Reports::with_each_scan_change` from `src/reports.rs`: the callback
is invoked once per result row in `ORDER BY items.path ASC` order and the
function returns the number of invocations. The first component is the
ordered sequence of callback arguments, the second the returned count. -/
def with_each_scan_change (changes : List ChangeRow) (items : List ItemRow)
    (scan_id : Int) : List ChangeYield × Nat :=
  let rows := List.insertionSort (fun a b => a.path ≤ b.path)
    (scanChangeJoin changes items scan_id)
  (rows, rows.length)

/-- One callback invocation of `Reports::with_each_scan_item`
(`src/reports.rs`): the selected columns
`id, path, item_type, last_modified, file_size, file_hash`. -/
structure ItemYield where
  id : Int
  path : String
  item_type : String
  last_modified : Int
  file_size : Option Int
  file_hash : Option String
deriving DecidableEq

/-- The tuple selected from one `items` row. -/
def itemYieldOf (i : ItemRow) : ItemYield :=
  ⟨i.id, i.path, i.item_type, i.last_modified, i.file_size, i.file_hash⟩

/-- The unordered result set of the query in `Reports::with_each_scan_item`:
`FROM items WHERE last_seen_scan_id = ?`. -/
def scanItemSel (items : List ItemRow) (scan_id : Int) : List ItemYield :=
  (items.filter (fun i => i.last_seen_scan_id = scan_id)).map itemYieldOf

/-- `Reports::with_each_scan_item` from `src/reports.rs`: the callback is
invoked once per result row in `ORDER BY path ASC` order and the function
returns the number of invocations. -/
def with_each_scan_item (items : List ItemRow) (scan_id : Int) :
    List ItemYield × Nat :=
  let rows := List.insertionSort (fun a b => a.path ≤ b.path)
    (scanItemSel items scan_id)
  (rows, rows.length)

instance : IsTotal ChangeYield (fun a b => a.path ≤ b.path) :=
  ⟨fun a b => le_total a.path b.path⟩

instance : IsTrans ChangeYield (fun a b => a.path ≤ b.path) :=
  ⟨fun _ _ _ hab hbc => le_trans hab hbc⟩

instance : IsTotal ItemYield (fun a b => a.path ≤ b.path) :=
  ⟨fun a b => le_total a.path b.path⟩

instance : IsTrans ItemYield (fun a b => a.path ≤ b.path) :=
  ⟨fun _ _ _ hab hbc => le_trans hab hbc⟩

/-- A filesystem path, modelled as its list of components. Rust's
`Path::starts_with` / `Path::strip_prefix` compare whole components, which
is component-list prefixing / dropping. -/
abbrev RPath := List String

/-- The `while let` loop of `Reports::get_tree_path` (`src/reports.rs`):
pop stack entries until the stack is empty or its top entry is a
component-prefix of the current (root-relative) path. The stack is
represented top-first (Rust pushes/pops at the end of the `Vec`; here the
top is the list head). -/
def windDown (p : RPath) : List RPath → List RPath
  | [] => []
  | top :: rest => if top <+: p then top :: rest else windDown p rest

/-- The part of the current path not yet covered by the top of the wound
down stack (`new_path` right after the `while let` loop): the whole path
when the stack emptied, otherwise the path with the top entry's
components stripped (`strip_prefix(stack_path)`). -/
def strippedPath (stack1 : List RPath) (p : RPath) : RPath :=
  match stack1 with
  | [] => p
  | top :: _ => p.drop top.length

/-- `Reports::get_tree_path` from `src/reports.rs`. Returns the updated
stack together with the `(indent_level, new_path)` pair the Rust function
returns. `path0.drop root_path.length` embeds
`Path::strip_prefix(root_path)` (whose `unwrap` succeeds when `root_path`
is a component-prefix of `path0`); the structural-component branch for
files pushes the original path's parent and reduces `new_path` to its
file name. -/
def get_tree_path (path_stack : List RPath) (root_path : RPath)
    (path0 : RPath) (is_dir : Bool) : List RPath × Nat × RPath :=
  let path := path0.drop root_path.length
  let stack1 := windDown path path_stack
  let np1 := strippedPath stack1 path
  -- for a file with a nonempty structural component, push the original
  -- path's parent and reduce the printed path to its file name
  let pushParent : Bool := !is_dir && !np1.dropLast.isEmpty
  let stack2 := if pushParent then path.dropLast :: stack1 else stack1
  let np2 := if pushParent then np1.drop (np1.length - 1) else np1
  let indent_level := stack2.length
  let stack3 := if is_dir then path :: stack2 else stack2
  (stack3, indent_level, np2)

/-- The stack invariant: each entry is a component-prefix of the entry
above it (the head is the top, i.e. the deepest open directory). -/
def chainStack (st : List RPath) : Prop :=
  List.Chain' (fun a b => b <+: a) st

/-- Feeding a sequence of `(path, is_dir)` rows through
`Reports::get_tree_path` starting from the empty stack, as
`print_scan_changes` / `print_scan_items` do, and returning the final
stack. -/
def runTree (root : RPath) (inputs : List (RPath × Bool)) : List RPath :=
  inputs.foldl (fun st pb => (get_tree_path st root pb.1 pb.2).1) []

/-- Modelled from the spec: the `scans` row fields governed by the scan
lifecycle (§3, §4.4); the scan writer (`scans.rs`) is not among the
provided sources. -/
structure ScanRec where
  is_complete : Bool
  file_count : Option Int
  folder_count : Option Int
deriving DecidableEq

/-- Modelled from the spec: §4.4 step 1 — a scan row is inserted with
`is_complete = false` and unset counts. -/
def ScanRec.start : ScanRec := ⟨false, none, none⟩

/-- Modelled from the spec: the only mutation of a scan row is §4.4
step 4 — on stream exhaustion the counts are stored and
`is_complete` is set, and this applies only to a scan that is not yet
complete (a complete scan is never mutated again). -/
inductive ScanStep : ScanRec → ScanRec → Prop where
  | finalize (s : ScanRec) (fc fol : Int) (h : s.is_complete = false) :
      ScanStep s ⟨true, some fc, some fol⟩

/-- Modelled from the spec: the scan rows reachable through the lifecycle
of §4.4 — inserted incomplete, then at most finalized once. -/
inductive ScanReachable : ScanRec → Prop where
  | start : ScanReachable ScanRec.start
  | step {s s' : ScanRec} : ScanReachable s → ScanStep s s' → ScanReachable s'

/-- Modelled from the spec: one walker observation
`(relative_path, kind, modified_time, size)` (§4.1); the walker is not
among the provided sources. Kinds use the stored encoding
`"F"` / `"D"`. -/
structure Entry where
  path : String
  item_type : String
  last_modified : Int
  file_size : Option Int
deriving DecidableEq

/-- Modelled from the spec: the classifier outcome set
`{Add, Delete, Modify{metadata_changed, hash_changed}, TypeChange,
NoChange}` (§4.3). -/
inductive ScanOutcome where
  | add
  | delete
  | typeChange
  | noChange
  | modify (metadata_changed hash_changed : Bool)
deriving DecidableEq

/-- The persisted change kind of an outcome. -/
def outcomeChangeType : ScanOutcome → ChangeType
  | .add => .Add
  | .delete => .Delete
  | .typeChange => .TypeChange
  | .noChange => .NoChange
  | .modify _ _ => .Modify

/-- Modelled from the spec: the change row written for one classified
outcome (§3, §4.4) — no row at all for `NoChange`, and the two nullable
booleans are populated exactly for `Modify`. -/
def changeRowFor (scan_id item_id : Int) : ScanOutcome → Option ChangeRow
  | .noChange => none
  | .modify mc hc =>
      some ⟨scan_id, item_id, ChangeType.Modify.as_db_str, some mc, some hc⟩
  | oc => some ⟨scan_id, item_id, (outcomeChangeType oc).as_db_str, none, none⟩

/-- Modelled from the spec: whether the metadata (timestamp / size) of a
stored item differs from the walker observation (§4.3). -/
def metadataDiffers (old : ItemRow) (e : Entry) : Bool :=
  old.last_modified != e.last_modified || old.file_size != e.file_size

/-- Modelled from the spec: the digest computed for a matched pair —
content is hashed for files when the scan is deep, or when it is shallow
and the metadata differs (§4.3). `hashOf` stands for the hashing
subsystem evaluated on the current filesystem content. -/
def computeDigest (deep : Bool) (hashOf : String → String)
    (old : ItemRow) (e : Entry) : Option String :=
  if e.item_type == "F" && (deep || metadataDiffers old e) then
    some (hashOf e.path)
  else none

/-- Modelled from the spec: the §4.3 decision table for a path present in
both streams (the Add/Delete rows of the table are decided by stream
presence in the merge of §4.4). -/
def classify (old : ItemRow) (e : Entry) (digest : Option String) : ScanOutcome :=
  if old.item_type != e.item_type then .typeChange
  else
    let mc := metadataDiffers old e
    let hc := match digest with
      | none => false
      | some h => old.file_hash != some h
    if mc || hc then .modify mc hc else .noChange

/-- Modelled from the spec: Delete flips the item to tombstone (§3). -/
def tombstoneOf (i : ItemRow) : ItemRow := { i with is_tombstone := true }

/-- Modelled from the spec: the item row inserted for an Add (§4.4);
`id` is the freshly minted row id. -/
def newItemFor (root_id scan_id : Int) (deep : Bool) (hashOf : String → String)
    (id : Int) (e : Entry) : ItemRow :=
  { id := id
    root_path_id := root_id
    path := e.path
    item_type := e.item_type
    last_seen_scan_id := scan_id
    is_tombstone := false
    last_modified := e.last_modified
    file_size := e.file_size
    file_hash := if e.item_type == "F" && deep then some (hashOf e.path) else none }

/-- Modelled from the spec: the in-place item update for a matched pair
(§3, §4.3): NoChange only advances `last_seen_scan_id`; Modify also takes
the observed metadata and any computed digest; TypeChange takes the new
kind and never carries the old digest forward. -/
def updateItemFor (scan_id : Int) (old : ItemRow) (e : Entry)
    (digest : Option String) : ScanOutcome → ItemRow
  | .noChange => { old with last_seen_scan_id := scan_id }
  | .modify _ _ =>
      { old with
        last_seen_scan_id := scan_id
        last_modified := e.last_modified
        file_size := e.file_size
        file_hash := (match digest with
          | some h => some h
          | none => old.file_hash) }
  | .typeChange =>
      { old with
        last_seen_scan_id := scan_id
        item_type := e.item_type
        last_modified := e.last_modified
        file_size := e.file_size
        file_hash := none }
  | _ => old

/-- Modelled from the spec: the sorted merge of §4.4 step 2 — the ordered
cursor of existing live items against the ordered walker stream, by path.
Returns the change rows written and the resulting item rows (in cursor
order). `nid` mints item ids for Adds; the reconciliation engine is not
among the provided sources. -/
def reconcile (root_id scan_id : Int) (deep : Bool) (hashOf : String → String)
    (nid : Int) (olds : List ItemRow) (news : List Entry) :
    List ChangeRow × List ItemRow :=
  match olds, news with
  | [], [] => ([], [])
  | [], e :: es =>
      let rest := reconcile root_id scan_id deep hashOf (nid + 1) [] es
      ((changeRowFor scan_id nid .add).toList ++ rest.1,
        newItemFor root_id scan_id deep hashOf nid e :: rest.2)
  | o :: os, [] =>
      let rest := reconcile root_id scan_id deep hashOf nid os []
      ((changeRowFor scan_id o.id .delete).toList ++ rest.1,
        tombstoneOf o :: rest.2)
  | o :: os, e :: es =>
      if o.path < e.path then
        let rest := reconcile root_id scan_id deep hashOf nid os (e :: es)
        ((changeRowFor scan_id o.id .delete).toList ++ rest.1,
          tombstoneOf o :: rest.2)
      else if e.path < o.path then
        let rest := reconcile root_id scan_id deep hashOf (nid + 1) (o :: os) es
        ((changeRowFor scan_id nid .add).toList ++ rest.1,
          newItemFor root_id scan_id deep hashOf nid e :: rest.2)
      else
        let digest := computeDigest deep hashOf o e
        let oc := classify o e digest
        let rest := reconcile root_id scan_id deep hashOf nid os es
        ((changeRowFor scan_id o.id oc).toList ++ rest.1,
          updateItemFor scan_id o e digest oc :: rest.2)
termination_by olds.length + news.length

/-- The walker observation of an item whose filesystem entry has not
changed since it was recorded. -/
def toEntry (i : ItemRow) : Entry :=
  ⟨i.path, i.item_type, i.last_modified, i.file_size⟩

/-- A small concrete `items` table used to exercise the query theorems. -/
def sampleItems : List ItemRow :=
  [⟨1, 5, "b", "F", 9, false, 1, none, none⟩,
   ⟨2, 5, "a", "D", 9, false, 1, none, none⟩,
   ⟨3, 5, "c", "F", 8, false, 1, none, none⟩]

/-- A small concrete `changes` table used to exercise the query theorems. -/
def sampleChanges : List ChangeRow :=
  [⟨9, 1, "M", some true, none⟩,
   ⟨9, 2, "A", none, none⟩,
   ⟨8, 1, "A", none, none⟩]

/-- A concrete live item whose stored digest agrees with the current
filesystem content under the constant hash function. -/
def sampleLiveItem : ItemRow :=
  ⟨1, 5, "a", "F", 3, false, 10, some 4, some "h"⟩

/-! ## Theorems -/

/-- C8: The `ChangeType` string encoding round-trips: for every
`ChangeType` value `c`, `ChangeType::from_str(c.as_db_str())` returns
`Ok(c)`, and the `Display` rendering of `c` is the same string as
`c.as_db_str()`. -/
theorem changeType_roundtrip (c : ChangeType) :
    ChangeType.from_str c.as_db_str = .ok c ∧ c.displayStr = c.as_db_str := by
  cases c <;> exact ⟨rfl, rfl⟩

/-- C9: `ChangeCounts` accessors obey frame and postconditions: after
`set(c, n)` the value `get(c)` equals `n` and the counters for the other
`ChangeType` values are unchanged; after `increment(c)`, `get(c)` is
exactly one greater than before and the other counters are unchanged. -/
theorem changeCounts_frame (cc : ChangeCounts) (c : ChangeType) (n : Int)
    (c' : ChangeType) (h : c' ≠ c) :
    (cc.set c n).get c = n
    ∧ (cc.set c n).get c' = cc.get c'
    ∧ (cc.increment c).get c = cc.get c + 1
    ∧ (cc.increment c).get c' = cc.get c' := by
  cases c <;> cases c' <;>
    simp_all [ChangeCounts.set, ChangeCounts.get, ChangeCounts.increment]

/-- Witness for C9 at a concrete counter value. -/
theorem changeCounts_frame_witness :
    ((ChangeCounts.mk 1 2 3 4 5).set .Add 7).get .Add = 7
    ∧ ((ChangeCounts.mk 1 2 3 4 5).set .Add 7).get .Delete
        = (ChangeCounts.mk 1 2 3 4 5).get .Delete
    ∧ ((ChangeCounts.mk 1 2 3 4 5).increment .Add).get .Add
        = (ChangeCounts.mk 1 2 3 4 5).get .Add + 1
    ∧ ((ChangeCounts.mk 1 2 3 4 5).increment .Add).get .Delete
        = (ChangeCounts.mk 1 2 3 4 5).get .Delete :=
  changeCounts_frame (ChangeCounts.mk 1 2 3 4 5) .Add 7 .Delete (by decide)

/-- C10: Parsing a change type never panics and fails exactly on unknown
codes: `ChangeType::from_str(s)` returns `Ok` of the corresponding
variant if `s` is one of `"A"`, `"D"`, `"M"`, `"T"`, `"N"`, and returns
`Err(DirCheckError::Error(..))` for every other string. -/
theorem from_str_spec (s : String) :
    (s = "A" → ChangeType.from_str s = .ok .Add)
    ∧ (s = "D" → ChangeType.from_str s = .ok .Delete)
    ∧ (s = "M" → ChangeType.from_str s = .ok .Modify)
    ∧ (s = "T" → ChangeType.from_str s = .ok .TypeChange)
    ∧ (s = "N" → ChangeType.from_str s = .ok .NoChange)
    ∧ (s ∉ (["A", "D", "M", "T", "N"] : List String) →
        ChangeType.from_str s
          = .error (DirCheckError.Error ("Invalid ChangeType: " ++ s))) := by
  refine ⟨fun h => ?_, fun h => ?_, fun h => ?_, fun h => ?_, fun h => ?_, fun h => ?_⟩
  · subst h; rfl
  · subst h; rfl
  · subst h; rfl
  · subst h; rfl
  · subst h; rfl
  · have hA : ¬s = "A" := fun hs => h (by simp [hs])
    have hD : ¬s = "D" := fun hs => h (by simp [hs])
    have hM : ¬s = "M" := fun hs => h (by simp [hs])
    have hT : ¬s = "T" := fun hs => h (by simp [hs])
    have hN : ¬s = "N" := fun hs => h (by simp [hs])
    simp [ChangeType.from_str, hA, hD, hM, hT, hN]

/-- Witness for C10 at the known code `"M"` and the unknown code `"Z"`. -/
theorem from_str_spec_witness :
    ChangeType.from_str "M" = .ok .Modify
    ∧ ChangeType.from_str "Z"
        = .error (DirCheckError.Error ("Invalid ChangeType: " ++ "Z")) :=
  ⟨(from_str_spec "M").2.2.1 rfl, (from_str_spec "Z").2.2.2.2.2 (by decide)⟩

/-- C3 counterexample: the claim quantifies `as_db_str` over every
`ChangeType` value, but `ChangeType::NoChange` encodes as `"N"`, which is
not among the four persisted kind codes. -/
theorem as_db_str_noChange_not_persisted :
    ChangeType.NoChange.as_db_str ∉ persistedKinds := by decide

/-- C3 (amended): every `ChangeType` value other than `NoChange` encodes
into the persisted set `{"A", "M", "D", "T"}`, and no change row is ever
written for a `NoChange` outcome: the row writer yields `none` for
`NoChange`, so every row it does write carries a persisted kind code. -/
theorem persisted_change_kinds (c : ChangeType) (s i : Int) (oc : ScanOutcome)
    (ch : ChangeRow) (hc : c ≠ ChangeType.NoChange)
    (hrow : changeRowFor s i oc = some ch) :
    c.as_db_str ∈ persistedKinds
    ∧ changeRowFor s i .noChange = none
    ∧ ch.change_type ∈ persistedKinds := by
  refine ⟨?_, rfl, ?_⟩
  · cases c <;> first | decide | exact absurd rfl hc
  · cases oc <;>
      simp_all [changeRowFor, outcomeChangeType, ChangeType.as_db_str, persistedKinds] <;>
      subst hrow <;> simp

/-- Witness for the amended C3 at `ChangeType::Add` and an `Add` row. -/
theorem persisted_change_kinds_witness :
    ChangeType.Add.as_db_str ∈ persistedKinds
    ∧ changeRowFor 1 2 .noChange = none
    ∧ (ChangeRow.mk 1 2 "A" none none).change_type ∈ persistedKinds :=
  persisted_change_kinds .Add 1 2 .add ⟨1, 2, "A", none, none⟩ (by decide) (by decide)

/-- The dispatch loop never touches the unchanged counter. -/
theorem applyGroupRow_unchanged (cc : ChangeCounts) (r : String × Int) :
    (applyGroupRow cc r).unchanged_count = cc.unchanged_count := by
  unfold applyGroupRow
  split_ifs <;> simp [ChangeCounts.set]

/-- Folding the aggregate rows never touches the unchanged counter. -/
theorem foldl_unchanged (gl : List (String × Int)) (cc : ChangeCounts) :
    (gl.foldl applyGroupRow cc).unchanged_count = cc.unchanged_count := by
  induction gl generalizing cc with
  | nil => rfl
  | cons r t ih => rw [List.foldl_cons, ih, applyGroupRow_unchanged]

/-- A counter is untouched by the fold when its key never occurs. -/
theorem foldl_proj_not_mem (proj : ChangeCounts → Int) (key : String)
    (hframe : ∀ cc r, r.1 ≠ key → proj (applyGroupRow cc r) = proj cc)
    (gl : List (String × Int)) (cc : ChangeCounts)
    (h : key ∉ gl.map Prod.fst) :
    proj (gl.foldl applyGroupRow cc) = proj cc := by
  induction gl generalizing cc with
  | nil => rfl
  | cons r t ih =>
      simp only [List.map_cons, List.mem_cons, not_or] at h
      rw [List.foldl_cons, ih _ h.2, hframe _ _ (fun he => h.1 he.symm)]

/-- When the keys are distinct and `(key, n)` is among the aggregate
rows, the fold sets the key's counter to `n`. -/
theorem foldl_proj_mem (proj : ChangeCounts → Int) (key : String)
    (hset : ∀ cc n, proj (applyGroupRow cc (key, n)) = n)
    (hframe : ∀ cc r, r.1 ≠ key → proj (applyGroupRow cc r) = proj cc)
    (gl : List (String × Int)) (cc : ChangeCounts) (n : Int)
    (hnd : (gl.map Prod.fst).Nodup) (hmem : (key, n) ∈ gl) :
    proj (gl.foldl applyGroupRow cc) = n := by
  induction gl generalizing cc with
  | nil => cases hmem
  | cons r t ih =>
      simp only [List.map_cons, List.nodup_cons] at hnd
      rcases List.mem_cons.mp hmem with h | h
      · rw [List.foldl_cons]
        have hnot : key ∉ t.map Prod.fst := by
          rw [← h] at hnd; simpa using hnd.1
        rw [foldl_proj_not_mem proj key hframe t _ hnot, ← h, hset]
      · rw [List.foldl_cons, ih _ hnd.2 h]

/-- The keys of `groupCounts` are the deduplicated change types of the
matching rows. -/
theorem groupCounts_keys (changes : List ChangeRow) (scan_id : Int) :
    (groupCounts changes scan_id).map Prod.fst
      = ((matchingChanges changes scan_id).map (fun c => c.change_type)).dedup := by
  unfold groupCounts
  rw [List.map_map]
  exact List.map_id _

/-- The counter selected by `proj` holds exactly the number of matching
rows whose change type is `key`. -/
theorem from_scan_id_key (proj : ChangeCounts → Int) (key : String)
    (hset : ∀ cc n, proj (applyGroupRow cc (key, n)) = n)
    (hframe : ∀ cc r, r.1 ≠ key → proj (applyGroupRow cc r) = proj cc)
    (hdef : proj ChangeCounts.default = 0)
    (changes : List ChangeRow) (scan_id : Int) :
    proj (ChangeCounts.from_scan_id changes scan_id)
      = (((matchingChanges changes scan_id).filter
          (fun c => c.change_type = key)).length : Int) := by
  unfold ChangeCounts.from_scan_id
  by_cases hk : key ∈ ((matchingChanges changes scan_id).map (fun c => c.change_type)).dedup
  · have hmem : (key, (((matchingChanges changes scan_id).filter
        (fun c => c.change_type = key)).length : Int)) ∈ groupCounts changes scan_id := by
      unfold groupCounts
      exact List.mem_map.mpr ⟨key, hk, rfl⟩
    have hnd : ((groupCounts changes scan_id).map Prod.fst).Nodup := by
      rw [groupCounts_keys]
      exact List.nodup_dedup _
    exact foldl_proj_mem proj key hset hframe _ _ _ hnd hmem
  · have hfil : ((matchingChanges changes scan_id).filter
        (fun c => c.change_type = key)) = [] := by
      refine List.filter_eq_nil_iff.mpr (fun c hcm => ?_)
      simp only [decide_eq_true_eq]
      intro hceq
      exact hk (List.mem_dedup.mpr (List.mem_map.mpr ⟨c, hcm, hceq⟩))
    have hnot : key ∉ (groupCounts changes scan_id).map Prod.fst := by
      rw [groupCounts_keys]; exact hk
    rw [foldl_proj_not_mem proj key hframe _ _ hnot, hdef, hfil]
    rfl

/-- C2: For every database state and scan id, `ChangeCounts::from_scan_id`
returns counts where each of the Add, Modify, Delete and TypeChange
counters equals the number of change rows of that persisted kind
(`"A"`, `"M"`, `"D"`, `"T"`) for that scan, and the unchanged counter is
never read from the store: it remains at its default value `0` regardless
of what rows exist. -/
theorem from_scan_id_counts (changes : List ChangeRow) (scan_id : Int) :
    (ChangeCounts.from_scan_id changes scan_id).get .Add
        = (((matchingChanges changes scan_id).filter
            (fun c => c.change_type = "A")).length : Int)
    ∧ (ChangeCounts.from_scan_id changes scan_id).get .Modify
        = (((matchingChanges changes scan_id).filter
            (fun c => c.change_type = "M")).length : Int)
    ∧ (ChangeCounts.from_scan_id changes scan_id).get .Delete
        = (((matchingChanges changes scan_id).filter
            (fun c => c.change_type = "D")).length : Int)
    ∧ (ChangeCounts.from_scan_id changes scan_id).get .TypeChange
        = (((matchingChanges changes scan_id).filter
            (fun c => c.change_type = "T")).length : Int)
    ∧ (ChangeCounts.from_scan_id changes scan_id).get .NoChange = 0 := by
  refine ⟨?_, ?_, ?_, ?_, ?_⟩
  · exact from_scan_id_key (fun cc => cc.get .Add) "A"
      (fun cc n => by simp [applyGroupRow, ChangeCounts.set, ChangeCounts.get])
      (fun cc r hr => by
        unfold applyGroupRow
        split_ifs <;> simp_all [ChangeCounts.set, ChangeCounts.get])
      rfl changes scan_id
  · exact from_scan_id_key (fun cc => cc.get .Modify) "M"
      (fun cc n => by simp [applyGroupRow, ChangeCounts.set, ChangeCounts.get])
      (fun cc r hr => by
        unfold applyGroupRow
        split_ifs <;> simp_all [ChangeCounts.set, ChangeCounts.get])
      rfl changes scan_id
  · exact from_scan_id_key (fun cc => cc.get .Delete) "D"
      (fun cc n => by simp [applyGroupRow, ChangeCounts.set, ChangeCounts.get])
      (fun cc r hr => by
        unfold applyGroupRow
        split_ifs <;> simp_all [ChangeCounts.set, ChangeCounts.get])
      rfl changes scan_id
  · exact from_scan_id_key (fun cc => cc.get .TypeChange) "T"
      (fun cc n => by simp [applyGroupRow, ChangeCounts.set, ChangeCounts.get])
      (fun cc r hr => by
        unfold applyGroupRow
        split_ifs <;> simp_all [ChangeCounts.set, ChangeCounts.get])
      rfl changes scan_id
  · show (ChangeCounts.from_scan_id changes scan_id).unchanged_count = 0
    unfold ChangeCounts.from_scan_id
    rw [foldl_unchanged]
    rfl

/-- A `flatMap` whose pieces are singletons has one output per input. -/
theorem flatMap_length_of_singletons {α β : Type} (l : List α) (f : α → List β)
    (h : ∀ a ∈ l, (f a).length = 1) : (l.flatMap f).length = l.length := by
  induction l with
  | nil => rfl
  | cons a t ih =>
      rw [List.flatMap_cons, List.length_append, h a (List.mem_cons_self a t),
        ih (fun b hb => h b (List.mem_cons_of_mem a hb))]
      rw [List.length_cons, Nat.add_comm]

/-- C4: For every scan id, the live-item query (`with_each_scan_item`, the
code behind `for_each_live_item`) invokes its callback exactly once per
item row whose `last_seen_scan_id` equals the scan id, in ascending order
of path, and returns the number of rows so yielded; items with a different
`last_seen_scan_id` are never yielded. -/
theorem with_each_scan_item_spec (items : List ItemRow) (scan_id : Int) :
    (with_each_scan_item items scan_id).2
        = (items.filter (fun i => i.last_seen_scan_id = scan_id)).length
    ∧ (with_each_scan_item items scan_id).2
        = (with_each_scan_item items scan_id).1.length
    ∧ List.Sorted (fun a b => a.path ≤ b.path) (with_each_scan_item items scan_id).1
    ∧ (with_each_scan_item items scan_id).1.Perm (scanItemSel items scan_id)
    ∧ (∀ y ∈ (with_each_scan_item items scan_id).1,
        ∃ i ∈ items, i.last_seen_scan_id = scan_id ∧ y = itemYieldOf i) := by
  refine ⟨?_, rfl, ?_, ?_, ?_⟩
  · show (List.insertionSort _ (scanItemSel items scan_id)).length = _
    rw [(List.perm_insertionSort _ _).length_eq]
    simp [scanItemSel]
  · exact List.sorted_insertionSort _ _
  · exact List.perm_insertionSort _ _
  · intro y hy
    have hy' : y ∈ scanItemSel items scan_id :=
      (List.perm_insertionSort _ _).mem_iff.mp hy
    obtain ⟨i, hi, rfl⟩ := List.mem_map.mp hy'
    obtain ⟨hi', hsel⟩ := List.mem_filter.mp hi
    exact ⟨i, hi', by simpa using hsel, rfl⟩

/-- C1: For every scan id, the change-query operation
(`with_each_scan_change`, the code behind `for_each_change`) invokes its
callback exactly once per change row whose `scan_id` matches (under
referential integrity: each matching change's `item_id` resolves to
exactly one item row), in ascending order of the joined item's path, and
returns the number of rows so yielded; rows of other scans are never
yielded. -/
theorem with_each_scan_change_spec (changes : List ChangeRow)
    (items : List ItemRow) (scan_id : Int)
    (hri : ∀ c ∈ changes, c.scan_id = scan_id →
      (items.filter (fun i => i.id = c.item_id)).length = 1) :
    (with_each_scan_change changes items scan_id).2
        = (changes.filter (fun c => c.scan_id = scan_id)).length
    ∧ (with_each_scan_change changes items scan_id).2
        = (with_each_scan_change changes items scan_id).1.length
    ∧ List.Sorted (fun a b => a.path ≤ b.path)
        (with_each_scan_change changes items scan_id).1
    ∧ (with_each_scan_change changes items scan_id).1.Perm
        (scanChangeJoin changes items scan_id)
    ∧ (∀ y ∈ (with_each_scan_change changes items scan_id).1,
        ∃ c ∈ changes, c.scan_id = scan_id
          ∧ ∃ i ∈ items, i.id = c.item_id ∧ y = changeYieldOf c i) := by
  refine ⟨?_, rfl, ?_, ?_, ?_⟩
  · show (List.insertionSort _ (scanChangeJoin changes items scan_id)).length = _
    rw [(List.perm_insertionSort _ _).length_eq]
    unfold scanChangeJoin
    refine flatMap_length_of_singletons _ _ (fun c hc => ?_)
    obtain ⟨hc', hceq⟩ := List.mem_filter.mp hc
    rw [List.length_map]
    exact hri c hc' (by simpa using hceq)
  · exact List.sorted_insertionSort _ _
  · exact List.perm_insertionSort _ _
  · intro y hy
    have hy' : y ∈ scanChangeJoin changes items scan_id :=
      (List.perm_insertionSort _ _).mem_iff.mp hy
    unfold scanChangeJoin at hy'
    obtain ⟨c, hc, hyc⟩ := List.mem_flatMap.mp hy'
    obtain ⟨hc', hcsc⟩ := List.mem_filter.mp hc
    obtain ⟨i, hi, rfl⟩ := List.mem_map.mp hyc
    obtain ⟨hi', hieq⟩ := List.mem_filter.mp hi
    exact ⟨c, hc', by simpa using hcsc, i, hi', by simpa using hieq, rfl⟩

/-- Witness for C1 on a concrete three-row change table with referential
integrity. -/
theorem with_each_scan_change_spec_witness :
    (with_each_scan_change sampleChanges sampleItems 9).2
        = (sampleChanges.filter (fun c => c.scan_id = 9)).length
    ∧ (with_each_scan_change sampleChanges sampleItems 9).2
        = (with_each_scan_change sampleChanges sampleItems 9).1.length
    ∧ List.Sorted (fun a b => a.path ≤ b.path)
        (with_each_scan_change sampleChanges sampleItems 9).1
    ∧ (with_each_scan_change sampleChanges sampleItems 9).1.Perm
        (scanChangeJoin sampleChanges sampleItems 9)
    ∧ (∀ y ∈ (with_each_scan_change sampleChanges sampleItems 9).1,
        ∃ c ∈ sampleChanges, c.scan_id = 9
          ∧ ∃ i ∈ sampleItems, i.id = c.item_id ∧ y = changeYieldOf c i) :=
  with_each_scan_change_spec sampleChanges sampleItems 9 (by decide)

/-- C6: For every reachable scan record, `file_count` and `folder_count`
are unset (null) while `is_complete` is false — so any reader of scan
rows observes counts only on complete scans — and no lifecycle step ever
mutates a scan that is already marked complete (every step starts from an
incomplete scan). -/
theorem scan_lifecycle (s t t' : ScanRec) (hs : ScanReachable s)
    (hstep : ScanStep t t') :
    (s.is_complete = true ∨ (s.file_count = none ∧ s.folder_count = none))
    ∧ (s.file_count = none ∨ s.is_complete = true)
    ∧ (s.folder_count = none ∨ s.is_complete = true)
    ∧ t.is_complete = false := by
  have h1 : s.is_complete = true ∨ (s.file_count = none ∧ s.folder_count = none) := by
    induction hs with
    | start => exact Or.inr ⟨rfl, rfl⟩
    | step hr hst ih => cases hst with | finalize fc fol h => exact Or.inl rfl
  have h4 : t.is_complete = false := by
    cases hstep with | finalize fc fol h => exact h
  refine ⟨h1, ?_, ?_, h4⟩
  · rcases h1 with h | h
    · exact Or.inr h
    · exact Or.inl h.1
  · rcases h1 with h | h
    · exact Or.inr h
    · exact Or.inl h.2

/-- Witness for C6 at the freshly inserted scan record and the
finalization step applied to it. -/
theorem scan_lifecycle_witness :
    (ScanRec.start.is_complete = true
      ∨ (ScanRec.start.file_count = none ∧ ScanRec.start.folder_count = none))
    ∧ (ScanRec.start.file_count = none ∨ ScanRec.start.is_complete = true)
    ∧ (ScanRec.start.folder_count = none ∨ ScanRec.start.is_complete = true)
    ∧ ScanRec.start.is_complete = false :=
  scan_lifecycle ScanRec.start ScanRec.start ⟨true, some 0, some 0⟩
    ScanReachable.start (ScanStep.finalize ScanRec.start 0 0 rfl)

/-- The walker observation of an unchanged item keeps its path. -/
theorem toEntry_path (i : ItemRow) : (toEntry i).path = i.path := rfl

/-- Re-observing an unchanged item classifies as `NoChange`: the metadata
coincide and any computed digest agrees with the stored one. -/
theorem classify_self (deep : Bool) (hashOf : String → String) (o : ItemRow)
    (hh : deep = true → o.item_type = "F" → o.file_hash = some (hashOf o.path)) :
    classify o (toEntry o) (computeDigest deep hashOf o (toEntry o)) = .noChange := by
  cases deep with
  | false =>
      simp [classify, computeDigest, toEntry, metadataDiffers]
  | true =>
      by_cases hf : o.item_type = "F"
      · have hho := hh rfl hf
        simp [classify, computeDigest, toEntry, metadataDiffers, hf, hho]
      · simp [classify, computeDigest, toEntry, metadataDiffers, hf]

/-- C7: Scanning is idempotent on an unchanged filesystem: a second scan
whose walker stream repeats exactly the stored live items (and, for a deep
scan, whose file contents still hash to the stored digests) produces zero
change rows and leaves every item row's `last_modified` and `file_hash`
unchanged, advancing only `last_seen_scan_id`. -/
theorem scan_idempotent (root_id scan_id : Int) (deep : Bool)
    (hashOf : String → String) (nid : Int) (olds : List ItemRow)
    (hhash : deep = true → ∀ i ∈ olds, i.item_type = "F" →
      i.file_hash = some (hashOf i.path)) :
    reconcile root_id scan_id deep hashOf nid olds (olds.map toEntry)
      = ([], olds.map (fun i => { i with last_seen_scan_id := scan_id })) := by
  induction olds generalizing nid with
  | nil =>
      rw [reconcile.eq_def]
      simp
  | cons o os ih =>
      have hcl := classify_self deep hashOf o
        (fun hd hf => hhash hd o (List.mem_cons_self o os) hf)
      have hih := ih nid
        (fun hd i hi hf => hhash hd i (List.mem_cons_of_mem o hi) hf)
      rw [List.map_cons, reconcile.eq_def]
      simp only [toEntry_path, lt_self_iff_false, if_false, hcl, hih]
      simp [changeRowFor, updateItemFor]

/-- Witness for C7 on a one-item table under a deep scan whose hash
function reproduces the stored digest. -/
theorem scan_idempotent_witness :
    reconcile 5 9 true (fun _ => "h") 50 [sampleLiveItem]
        ([sampleLiveItem].map toEntry)
      = ([], [sampleLiveItem].map (fun i => { i with last_seen_scan_id := 9 })) :=
  scan_idempotent 5 9 true (fun _ => "h") 50 [sampleLiveItem] (by decide)

/-- Popping only removes entries from the top: the wound-down stack is a
suffix of the input stack. -/
theorem windDown_suffix (p : RPath) (st : List RPath) : windDown p st <:+ st := by
  induction st with
  | nil => exact List.suffix_refl _
  | cons a l ih =>
      unfold windDown
      split_ifs with h
      · exact List.suffix_refl _
      · exact ih.trans (List.suffix_cons a l)

/-- Popping stops exactly when the stack is empty or its top entry
prefixes the current path. -/
theorem windDown_head (p : RPath) (st : List RPath) :
    windDown p st = [] ∨ ∃ t rest, windDown p st = t :: rest ∧ t <+: p := by
  induction st with
  | nil => exact Or.inl rfl
  | cons a l ih =>
      unfold windDown
      split_ifs with h
      · exact Or.inr ⟨a, l, rfl, h⟩
      · exact ih

/-- Popping preserves the chain invariant. -/
theorem windDown_chain (p : RPath) (st : List RPath) (hc : chainStack st) :
    chainStack (windDown p st) := by
  induction st with
  | nil => exact hc
  | cons a l ih =>
      unfold windDown
      split_ifs with h
      · exact hc
      · exact ih (List.Chain'.tail hc)

/-- In a chained stack whose top prefixes `p`, every entry prefixes `p`. -/
theorem chain_all_pre (p : RPath) (st : List RPath) (hc : chainStack st)
    (hh : ∀ t ∈ st.head?, t <+: p) : ∀ q ∈ st, q <+: p := by
  induction st with
  | nil => intro q hq; cases hq
  | cons a l ih =>
      intro q hq
      have ha : a <+: p := hh a rfl
      rcases List.mem_cons.mp hq with rfl | hq'
      · exact ha
      · refine ih (List.Chain'.tail hc) ?_ q hq'
        intro t ht
        cases l with
        | nil => exact absurd ht (by simp)
        | cons b l2 =>
            have htb : b = t := by simpa using ht
            subst htb
            have hba : b <+: a := (List.chain'_cons.mp hc).1
            exact hba.trans ha

/-- An initial segment is a component-prefix. -/
theorem take_pre {α : Type} (l : List α) (n : Nat) : l.take n <+: l :=
  ⟨l.drop n, List.take_append_drop n l⟩

/-- A short enough prefix also prefixes the truncation. -/
theorem pre_take_of_le {α : Type} {t p : List α} (h : t <+: p) {n : Nat}
    (hn : t.length ≤ n) : t <+: p.take n := by
  obtain ⟨s, hs⟩ := h
  subst hs
  rw [List.take_append_eq_append_take, List.take_of_length_le hn]
  exact ⟨s.take (n - t.length), rfl⟩

/-- Dropping the last component yields a component-prefix. -/
theorem dropLast_pre {α : Type} (l : List α) : l.dropLast <+: l := by
  rw [List.dropLast_eq_take]
  exact take_pre l _

/-- One `get_tree_path` call on a chained stack keeps the stack chained
and leaves only prefixes of the processed (root-relative) path on it.
Stated with an empty root; the general call is definitionally the same
after stripping. -/
theorem get_tree_path_step (st : List RPath) (p : RPath) (d : Bool)
    (hc : chainStack st) :
    chainStack (get_tree_path st [] p d).1
    ∧ ∀ q ∈ (get_tree_path st [] p d).1, q <+: p := by
  have hc1 : chainStack (windDown p st) := windDown_chain p st hc
  have hall : ∀ q ∈ windDown p st, q <+: p := by
    refine chain_all_pre p _ hc1 ?_
    intro t ht
    rcases windDown_head p st with h0 | ⟨t', rest, heq, hpre⟩
    · rw [h0] at ht
      exact absurd ht (by simp)
    · rw [heq] at ht
      have htt : t' = t := by simpa using ht
      exact htt ▸ hpre
  cases d with
  | true =>
      refine ⟨?_, ?_⟩
      · show chainStack (p :: windDown p st)
        exact List.chain'_cons'.mpr
          ⟨fun y hy => hall y (List.mem_of_mem_head? hy), hc1⟩
      · show ∀ q ∈ p :: windDown p st, q <+: p
        intro q hq
        rcases List.mem_cons.mp hq with rfl | hq'
        · exact List.prefix_refl _
        · exact hall q hq'
  | false =>
      show chainStack
          (if (!(strippedPath (windDown p st) p).dropLast.isEmpty) = true
            then p.dropLast :: windDown p st else windDown p st)
        ∧ ∀ q ∈ (if (!(strippedPath (windDown p st) p).dropLast.isEmpty) = true
            then p.dropLast :: windDown p st else windDown p st), q <+: p
      cases hs1e : windDown p st with
      | nil =>
          rw [hs1e] at hc1 hall
          simp only [strippedPath]
          by_cases hnp : p.dropLast.isEmpty = true
          · simp only [hnp, Bool.not_true, if_neg]
            refine ⟨List.chain'_nil, ?_⟩
            intro q hq
            exact absurd hq (by simp)
          · have hnp' : p.dropLast.isEmpty = false := by
              simpa using hnp
            simp only [hnp', Bool.not_false, if_pos]
            refine ⟨List.chain'_singleton _, ?_⟩
            intro q hq
            have hq' : q = p.dropLast := by simpa using hq
            exact hq' ▸ dropLast_pre p
      | cons t rest =>
          rw [hs1e] at hc1 hall
          simp only [strippedPath]
          have htp : t <+: p := hall t (List.mem_cons_self t rest)
          by_cases hnp : (p.drop t.length).dropLast.isEmpty = true
          · simp only [hnp, Bool.not_true, if_neg]
            exact ⟨hc1, hall⟩
          · have hnp' : (p.drop t.length).dropLast.isEmpty = false := by
              simpa using hnp
            simp only [hnp', Bool.not_false, if_pos]
            have hlen2 : 2 ≤ p.length - t.length := by
              have h1 : (p.drop t.length).dropLast ≠ [] := by
                intro he
                rw [he] at hnp'
                simp at hnp'
              have h2 : 0 < (p.drop t.length).dropLast.length :=
                List.length_pos.mpr h1
              rw [List.length_dropLast, List.length_drop] at h2
              omega
            have htl : t.length ≤ p.length := htp.length_le
            have htdp : t <+: p.dropLast := by
              rw [List.dropLast_eq_take]
              exact pre_take_of_le htp (by omega)
            refine ⟨?_, ?_⟩
            · refine List.chain'_cons'.mpr ⟨?_, hc1⟩
              intro y hy
              have hyt : t = y := by simpa using hy
              exact hyt ▸ htdp
            · intro q hq
              rcases List.mem_cons.mp hq with rfl | hq'
              · exact dropLast_pre p
              · exact hall q hq'

/-- The report loops start from an empty stack, and every
`get_tree_path` call keeps the stack chained. -/
theorem runTree_chain (root : RPath) (inputs : List (RPath × Bool)) :
    chainStack (runTree root inputs) := by
  suffices h : ∀ st, chainStack st →
      chainStack (inputs.foldl
        (fun st pb => (get_tree_path st root pb.1 pb.2).1) st) from
    h [] List.chain'_nil
  induction inputs with
  | nil => intro st hst; exact hst
  | cons pb tl ih =>
      intro st hst
      rw [List.foldl_cons]
      exact ih _ (get_tree_path_step st (pb.1.drop root.length) pb.2 hst).1

/-- C5: For every sequence of paths fed through `get_tree_path`, the
directory stack is maintained as the chain of currently open ancestors: a
call pops entries until the stack is empty or its top entry is a
component-prefix of the current root-relative path, and after the call
every entry remaining on the stack is a prefix of the path just
processed. -/
theorem get_tree_path_stack_spec (root : RPath) (inputs : List (RPath × Bool))
    (p0 : RPath) (d : Bool) :
    windDown (p0.drop root.length) (runTree root inputs) <:+ runTree root inputs
    ∧ (windDown (p0.drop root.length) (runTree root inputs) = []
        ∨ ∃ t rest, windDown (p0.drop root.length) (runTree root inputs) = t :: rest
            ∧ t <+: p0.drop root.length)
    ∧ chainStack (get_tree_path (runTree root inputs) root p0 d).1
    ∧ ∀ q ∈ (get_tree_path (runTree root inputs) root p0 d).1,
        q <+: p0.drop root.length := by
  have h := get_tree_path_step (runTree root inputs) (p0.drop root.length) d
    (runTree_chain root inputs)
  exact ⟨windDown_suffix _ _, windDown_head _ _, h.1, h.2⟩

end DirCheck
